import Mathlib

/-!
Verification of the FINN dataflow-accelerator runtime driver
(`finn_examples/driver.py`, class `FINNExampleOverlay`) against its
natural-language specification.

The driver is shallowly embedded: tensors are flat element lists tagged
with a shape, device interactions (register reads/writes, DMA starts,
transfer-handle waits) are recorded as explicit event traces, and the
environment (status registers, readback memories, handle values) is
supplied as pure oracle functions.  Fallible Python code (assertions,
index errors, reshape errors) is modelled with `Option`/error results.
-/

namespace FinnDriver

/-- A numpy-style tensor: a shape together with the row-major flat data.
Element values are natural numbers (bit patterns of the stored words). -/
structure Tensor where
  shape : List Nat
  data : List Nat
  deriving Repr, DecidableEq

/-- numpy `reshape`: the flat data is unchanged, the shape is replaced;
fails (raises `ValueError` in numpy) when the element counts differ. -/
def reshape (t : Tensor) (s : List Nat) : Option Tensor :=
  if t.data.length = s.prod then some ⟨s, t.data⟩ else none

/-- Python `ret = list(shape); ret[0] = v`: replace the leading dimension;
raises `IndexError` (here: `none`) on an empty shape. -/
def setHead (l : List Nat) (v : Nat) : Option (List Nat) :=
  match l with
  | [] => none
  | _ :: t => some (v :: t)

/-- The `io_shape_dict` descriptor generated by MakePYNQDriver: per-index
datatypes (modelled by their bit width) and normal/folded/packed shapes,
input/output counts, and the optional declared external-weight count. -/
structure IOShapeDict where
  idt : List Nat
  odt : List Nat
  ishape_normal : List (List Nat)
  oshape_normal : List (List Nat)
  ishape_folded : List (List Nat)
  oshape_folded : List (List Nat)
  ishape_packed : List (List Nat)
  oshape_packed : List (List Nat)
  num_inputs : Nat
  num_outputs : Nat
  number_of_external_weights : Option Nat
  deriving Repr

/-- One entry of `self.external_weights`: the weight DMA engine (identified
by its name, as a number) and the device address of its weight buffer. -/
structure EWBinding where
  eng : Nat
  addr : Nat
  deriving Repr, DecidableEq

/-- The mutable driver state that the claims depend on: platform string,
descriptor, current batch size, external-weight bindings, device addresses
of the per-index packed input/output buffers, and the per-output-channel
transfer handles used on the alveo platform. -/
structure Driver where
  platform : String
  io : IOShapeDict
  batch_size : Nat
  external_weights : List EWBinding
  ibufAddr : Nat → Nat
  obufAddr : Nat → Nat
  odma_handle : List (Option Nat)

/-- `ishape_normal(ind)`: descriptor shape with leading dim = batch size. -/
def Driver.ishape_normal (d : Driver) (ind : Nat) : Option (List Nat) :=
  d.io.ishape_normal[ind]?.bind (fun s => setHead s d.batch_size)

/-- `oshape_normal(ind)`: descriptor shape with leading dim = batch size. -/
def Driver.oshape_normal (d : Driver) (ind : Nat) : Option (List Nat) :=
  d.io.oshape_normal[ind]?.bind (fun s => setHead s d.batch_size)

/-- `ishape_folded(ind)`: descriptor shape with leading dim = batch size. -/
def Driver.ishape_folded (d : Driver) (ind : Nat) : Option (List Nat) :=
  d.io.ishape_folded[ind]?.bind (fun s => setHead s d.batch_size)

/-- `oshape_folded(ind)`: descriptor shape with leading dim = batch size. -/
def Driver.oshape_folded (d : Driver) (ind : Nat) : Option (List Nat) :=
  d.io.oshape_folded[ind]?.bind (fun s => setHead s d.batch_size)

/-- `ishape_packed(ind)`: descriptor shape with leading dim = batch size. -/
def Driver.ishape_packed (d : Driver) (ind : Nat) : Option (List Nat) :=
  d.io.ishape_packed[ind]?.bind (fun s => setHead s d.batch_size)

/-- `oshape_packed(ind)`: descriptor shape with leading dim = batch size. -/
def Driver.oshape_packed (d : Driver) (ind : Nat) : Option (List Nat) :=
  d.io.oshape_packed[ind]?.bind (fun s => setHead s d.batch_size)

/-- The `batch_size` property setter: stores the value unchanged (the
buffer reallocation it also performs does not affect the stored size). -/
def set_batch_size (d : Driver) (v : Nat) : Driver :=
  { d with batch_size := v }

/-- `fold_input`: assert the argument has the expected normal input shape,
then reshape it to the folded input shape. -/
def fold_input (d : Driver) (ibuf_normal : Tensor) (ind : Nat) : Option Tensor :=
  (d.ishape_normal ind).bind (fun sn =>
    if ibuf_normal.shape = sn then
      (d.ishape_folded ind).bind (fun sf => reshape ibuf_normal sf)
    else none)

/-- `unfold_output`: reshape folded output data to the normal output shape. -/
def unfold_output (d : Driver) (obuf_folded : Tensor) (ind : Nat) : Option Tensor :=
  (d.oshape_normal ind).bind (fun sn => reshape obuf_folded sn)

/-! ## Packed codec

The bit-packing primitives `finnpy_to_packed_bytearray` and
`packed_bytearray_to_finnpy` live in the external `finn` package, outside
this repository; the driver only fixes their flags
(`reverse_endian=True`, `reverse_inner=True`). -/

/-- Little-endian fixed-length base-`b` digit expansion of `n`. -/
def toLEdigits (b : Nat) : Nat → Nat → List Nat
  | 0, _ => []
  | len + 1, n => n % b :: toLEdigits b len (n / b)

/-- Value of a little-endian base-`b` digit list. -/
def ofLEdigits (b : Nat) (ds : List Nat) : Nat :=
  ds.foldr (fun d acc => d + b * acc) 0

/-- Big-endian (most-significant-first) fixed-length digit expansion. -/
def toBEdigits (b len n : Nat) : List Nat :=
  (toLEdigits b len n).reverse

/-- Value of a big-endian base-`b` digit list (MSB-first accumulation). -/
def ofBEdigits (b : Nat) (ds : List Nat) : Nat :=
  ds.foldl (fun acc d => acc * b + d) 0

/-- Bytes per packed innermost row: `ceil(width * lanes / 8)`. -/
def bytesPerRow (w k : Nat) : Nat := (w * k + 7) / 8

/-- Modelled from the spec: one innermost (SIMD-lane) row of the external
bit-packing codec `finnpy_to_packed_bytearray`, which is not part of this
repository.  Per §4.2 the codec assembles the lane elements
most-significant-first into a packed word, with the lane order reversed
(`reverse_inner`) and the byte order of the word reversed
(`reverse_endian`). -/
def packRow (w : Nat) (row : List Nat) : List Nat :=
  let rev := row.reverse
  let n := ofBEdigits (2 ^ w) rev
  let bytes := toBEdigits 256 (bytesPerRow w row.length) n
  bytes.reverse

/-- Modelled from the spec: one row of the external codec
`packed_bytearray_to_finnpy` (not part of this repository), inverting
`packRow`: undo the byte reversal, reassemble the packed word, split it
into `k` elements of `w` bits, and undo the lane reversal. -/
def unpackRow (w k : Nat) (bytes : List Nat) : List Nat :=
  let n := ofBEdigits 256 bytes.reverse
  let elems := toBEdigits (2 ^ w) k n
  elems.reverse

/-- Split a flat list into consecutive chunks of `k` elements. -/
def chunkRows (k : Nat) (l : List Nat) : List (List Nat) :=
  if h : k = 0 ∨ l = [] then []
  else
    have hk : 0 < k := Nat.pos_of_ne_zero (fun h0 => h (Or.inl h0))
    have hl : l ≠ [] := fun h0 => h (Or.inr h0)
    have : l.length - k < l.length :=
      Nat.sub_lt (List.length_pos.mpr hl) hk
    l.take k :: chunkRows k (l.drop k)
termination_by l.length
decreasing_by simpa using this

/-- Modelled from the spec: the external codec `finnpy_to_packed_bytearray`
applied to a folded tensor, packing along the innermost (lane) dimension;
the packed shape replaces the innermost dimension by the packed byte
count.  Fails on a rank-0 tensor or a zero innermost dimension. -/
def finnpy_to_packed (w : Nat) (x : Tensor) : Option Tensor :=
  match x.shape.getLast? with
  | none => none
  | some k =>
    if k = 0 then none
    else
      some ⟨x.shape.dropLast ++ [bytesPerRow w k],
            (chunkRows k x.data).flatMap (packRow w)⟩

/-- Modelled from the spec: the external codec `packed_bytearray_to_finnpy`
applied to a packed byte tensor, producing elements in the given folded
shape.  Fails on a rank-0 target shape or a zero innermost dimension. -/
def packed_to_finnpy (w : Nat) (folded_shape : List Nat) (p : Tensor) : Option Tensor :=
  match folded_shape.getLast? with
  | none => none
  | some k =>
    if k = 0 then none
    else
      some ⟨folded_shape,
            (chunkRows (bytesPerRow w k) p.data).flatMap (unpackRow w k)⟩

/-- `pack_input`: pack a folded input tensor with the input datatype of
channel `ind` (the codec flags are fixed by the driver). -/
def pack_input (d : Driver) (ibuf_folded : Tensor) (ind : Nat) : Option Tensor :=
  d.io.idt[ind]?.bind (fun w => finnpy_to_packed w ibuf_folded)

/-- `unpack_output`: unpack a packed output buffer with the output datatype
and folded output shape of channel `ind`. -/
def unpack_output (d : Driver) (obuf_packed : Tensor) (ind : Nat) : Option Tensor :=
  d.io.odt[ind]?.bind (fun w =>
    (d.oshape_folded ind).bind (fun sf => packed_to_finnpy w sf obuf_packed))

/-! ## Execution engine

Device interactions are recorded as an event trace; status registers,
transfer handles and readback values come from a pure oracle `Env`. -/

/-- A DMA engine of the accelerator: input channel `i`, output channel
`o`, or the external-weight engine named `name`. -/
inductive Engine
  | idma (i : Nat)
  | odma (o : Nat)
  | iwdma (name : Nat)
  deriving Repr, DecidableEq

/-- One observable device interaction: a register read, a register write,
an alveo asynchronous engine start, or a wait on a transfer handle. -/
inductive Ev
  | rd (e : Engine) (off : Nat)
  | wr (e : Engine) (off : Nat) (v : Nat)
  | start (e : Engine) (addr : Nat) (bs : Nat)
  | waitH (h : Nat)
  deriving Repr, DecidableEq

/-- The hardware environment: `lstat o` is the value the output engine
`o`'s status register returns at the launch-precondition read, `zstat o t`
the value it returns at the `t`-th poll of the wait loop, and `hdl o` the
transfer handle returned by the alveo `start` on output channel `o`. -/
structure Env where
  lstat : Nat → Nat
  zstat : Nat → Nat → Nat
  hdl : Nat → Nat

/-- Outcome of a driver operation: a new driver state, a raised error
(Python `AssertionError` / `Exception`), or divergence of the untimed
busy-wait loop (modelled by fuel exhaustion). -/
inductive Res
  | ok (d : Driver)
  | err (msg : String)
  | hang

/-- The zynq-iodma launch precondition loop:
`for o in outs: assert odma[o].read(0x00) & 0x4 != 0`.  Returns the reads
performed and the error of the first non-idle engine, if any. -/
def zynqCheckIdle (lstat : Nat → Nat) : List Nat → List Ev × Option String
  | [] => ([], none)
  | o :: os =>
    if lstat o &&& 0x4 ≠ 0 then
      let r := zynqCheckIdle lstat os
      (Ev.rd (Engine.odma o) 0x00 :: r.1, r.2)
    else
      ([Ev.rd (Engine.odma o) 0x00],
       some ("Output DMA " ++ toString o ++ " is not idle"))

/-- The three register writes that launch one IODMA engine: buffer
address at `0x10`, batch size at `0x1C`, start trigger at `0x00`. -/
def iodmaWrites (e : Engine) (addr bs : Nat) : List Ev :=
  [Ev.wr e 0x10 addr, Ev.wr e 0x1C bs, Ev.wr e 0x00 1]

/-- `for iwdma, iwbuf, _ in self.external_weights: ...` launch writes. -/
def ewWrites (bs : Nat) : List EWBinding → List Ev
  | [] => []
  | b :: rest => iodmaWrites (Engine.iwdma b.eng) b.addr bs ++ ewWrites bs rest

/-- `for o in range(self.num_outputs): ...` launch writes. -/
def odmaWrites (d : Driver) (bs : Nat) : List Ev :=
  (List.range d.io.num_outputs).flatMap
    (fun o => iodmaWrites (Engine.odma o) (d.obufAddr o) bs)

/-- `for i in range(self.num_inputs): ...` launch writes. -/
def idmaWrites (d : Driver) (bs : Nat) : List Ev :=
  (List.range d.io.num_inputs).flatMap
    (fun i => iodmaWrites (Engine.idma i) (d.ibufAddr i) bs)

/-- The alveo launch precondition loop:
`for o in outs: assert self.odma_handle[o] is None`. -/
def alveoCheck (hs : List (Option Nat)) : List Nat → Option String
  | [] => none
  | o :: os =>
    match hs[o]? with
    | some none => alveoCheck hs os
    | some (some _) => some ("Output DMA " ++ toString o ++ " is already running")
    | none => some "IndexError: odma_handle"

/-- The alveo launch `start` calls: every input engine, then every
external-weight engine, then every output engine (whose handle is
stored). -/
def alveoStarts (d : Driver) (bs : Nat) : List Ev :=
  (List.range d.io.num_inputs).map (fun i => Ev.start (Engine.idma i) (d.ibufAddr i) bs)
    ++ d.external_weights.map (fun b => Ev.start (Engine.iwdma b.eng) b.addr bs)
    ++ (List.range d.io.num_outputs).map (fun o => Ev.start (Engine.odma o) (d.obufAddr o) bs)

/-- `self.odma_handle[o] = self.odma[o].start(...)` for each output `o`. -/
def setHandles (hs : List (Option Nat)) (env : Env) (n : Nat) : List (Option Nat) :=
  (List.range n).foldl (fun acc o => acc.set o (some (env.hdl o))) hs

/-- The zynq-iodma wait poll loop for one output engine (attempt counter
`t`, bounded by `fuel`): `status = read(0x00); while status & 0x2 == 0:
status = read(0x00)`.  `false` means the loop was still spinning when the
fuel ran out (the code has no timeout). -/
def pollUntilDone (stat : Nat → Nat) (o : Nat) : Nat → Nat → List Ev × Bool
  | _, 0 => ([], false)
  | t, fuel + 1 =>
    if stat t &&& 0x2 ≠ 0 then ([Ev.rd (Engine.odma o) 0x00], true)
    else
      let r := pollUntilDone stat o (t + 1) fuel
      (Ev.rd (Engine.odma o) 0x00 :: r.1, r.2)

/-- The zynq-iodma wait loop over all output engines, in order. -/
def zynqWaitLoop (env : Env) : List Nat → Nat → List Ev × Bool
  | [], _ => ([], true)
  | o :: os, fuel =>
    let p := pollUntilDone (env.zstat o) o 0 fuel
    if p.2 then
      let r := zynqWaitLoop env os fuel
      (p.1 ++ r.1, r.2)
    else (p.1, false)

/-- The alveo wait loop: `for o in outs: odma_handle[o].wait();
odma_handle[o] = None`. -/
def alveoWaitLoop (hs : List (Option Nat)) : List Nat → List Ev × List (Option Nat) × Option String
  | [] => ([], hs, none)
  | o :: os =>
    match hs[o]? with
    | some (some h) =>
      let r := alveoWaitLoop (hs.set o none) os
      (Ev.waitH h :: r.1, r.2.1, r.2.2)
    | some none => ([], hs, some "AttributeError: NoneType has no wait")
    | none => ([], hs, some "IndexError: odma_handle")

/-- `wait_until_finished`: block until all output DMAs have finished. -/
def wait_until_finished (d : Driver) (env : Env) (fuel : Nat) : List Ev × Res :=
  if d.platform = "zynq-iodma" then
    match zynqWaitLoop env (List.range d.io.num_outputs) fuel with
    | (t, true) => (t, Res.ok d)
    | (t, false) => (t, Res.hang)
  else if d.platform = "alveo" then
    if d.odma_handle.all (fun x => x.isSome) then
      match alveoWaitLoop d.odma_handle (List.range d.io.num_outputs) with
      | (t, _, some e) => (t, Res.err e)
      | (t, hs, none) => (t, Res.ok { d with odma_handle := hs })
    else ([], Res.err "No odma_handle to wait on")
  else ([], Res.err ("Unrecognized platform: " ++ d.platform))

/-- The platform-dispatch launch section of `execute_on_buffers`
(driver.py lines 350-376): the zynq-iodma idle-precondition reads and
register writes, or the alveo pending-handle check and engine starts, or
the unrecognized-platform exception. -/
def launchOnBuffers (d : Driver) (env : Env) (bs : Nat) : List Ev × Res :=
  if d.platform = "zynq-iodma" then
    match zynqCheckIdle env.lstat (List.range d.io.num_outputs) with
    | (t, some e) => (t, Res.err e)
    | (t, none) =>
      (t ++ ewWrites bs d.external_weights ++ odmaWrites d bs ++ idmaWrites d bs,
       Res.ok d)
  else if d.platform = "alveo" then
    match alveoCheck d.odma_handle (List.range d.io.num_outputs) with
    | some e => ([], Res.err e)
    | none =>
      (alveoStarts d bs,
       Res.ok { d with odma_handle := setHandles d.odma_handle env d.io.num_outputs })
  else ([], Res.err ("Unrecognized platform: " ++ d.platform))

/-- `execute_on_buffers(asynch, batch_size)`: check the batch size, run
the platform-specific launch protocol, then wait unless `asynch`. -/
def execute_on_buffers (d : Driver) (env : Env) (fuel : Nat) (asynch : Bool)
    (bso : Option Nat) : List Ev × Res :=
  let bs := bso.getD d.batch_size
  if bs ≤ d.batch_size then
    match launchOnBuffers d env bs with
    | (t, Res.ok d1) =>
      if asynch then (t, Res.ok d1)
      else
        let w := wait_until_finished d1 env fuel
        (t ++ w.1, w.2)
    | r => r
  else ([], Res.err "Specified batch_size is too large.")

/-- Sequential composition of two traced driver operations: the second
runs only when the first succeeded; traces concatenate. -/
def seqRun (r : List Ev × Res) (f : Driver → List Ev × Res) : List Ev × Res :=
  match r with
  | (t, Res.ok d) =>
    let s := f d
    (t ++ s.1, s.2)
  | other => other

/-- Whether an event is a register write. -/
def Ev.isWrite : Ev → Bool
  | Ev.wr _ _ _ => true
  | _ => false

/-! ## Weight loaders

The filesystem scan is external I/O; its result (the parsed files, in
Python dict iteration order) is the input of the embedded loaders.  The
memory-mapped weight interface is an oracle `dev` mapping the written
word sequence to the array contents observed at readback. -/

/-- One parsed runtime-weight `.dat` file: the partition and layer indices
from the file name and the decoded unsigned 32-bit word sequence. -/
structure RtLayer where
  sdp : Nat
  layer : Nat
  words : List Nat
  deriving Repr, DecidableEq

/-- Observable actions of `load_runtime_weights`: an `mmio.write_mm(0, …)`
of a word sequence to a partition, or the trailing dummy
`execute_on_buffers()` flush call. -/
inductive RtEv
  | writeMM (sdp : Nat) (words : List Nat)
  | flushExec
  deriving Repr, DecidableEq

/-- The per-layer loop of `load_runtime_weights`: write each layer whose
partition exists in `ip_dict` (`present`), and on `verify` re-read
`layer_w.shape[0]` words from offset 0 and assert equality. -/
def rtLoop (present : Nat → Bool) (dev : Nat → List Nat → List Nat) (verify : Bool) :
    List RtLayer → List RtEv × Option String
  | [] => ([], none)
  | l :: rest =>
    if present l.sdp then
      let ev := RtEv.writeMM l.sdp l.words
      if verify then
        let new_w := (dev l.sdp l.words).take l.words.length
        if new_w = l.words then
          let r := rtLoop present dev verify rest
          (ev :: r.1, r.2)
        else ([ev], some "AssertionError: runtime weight readback mismatch")
      else
        let r := rtLoop present dev verify rest
        (ev :: r.1, r.2)
    else rtLoop present dev verify rest

/-- `load_runtime_weights(flush_accel, verify)` on the parsed weight
files: write (and optionally verify) every layer, then, if `flush_accel`,
run one dummy `execute_on_buffers()` cycle.  An assertion failure
propagates immediately. -/
def load_runtime_weights (layers : List RtLayer) (present : Nat → Bool)
    (dev : Nat → List Nat → List Nat) (flush_accel verify : Bool) :
    List RtEv × Option String :=
  let r := rtLoop present dev verify layers
  match r.2 with
  | some e => (r.1, some e)
  | none => if flush_accel then (r.1 ++ [RtEv.flushExec], none) else (r.1, none)

/-- One file found in the runtime-weight directory, as seen by
`load_external_weights`: its base name (the target engine name, as a
number), whether it is an `.npy` file, and the flat weight data. -/
structure EWFile where
  stem : Nat
  isNpy : Bool
  tensor : List Nat
  deriving Repr, DecidableEq

/-- Python dict insertion: overwriting an existing key keeps its original
position, a fresh key is appended. -/
def dictInsert (l : List (Nat × List Nat)) (k : Nat) (v : List Nat) :
    List (Nat × List Nat) :=
  if l.any (fun p => p.1 = k) then
    l.map (fun p => if p.1 = k then (k, v) else p)
  else l ++ [(k, v)]

/-- `load_external_weights`: `none` for `dir` models a missing
`runtime_weight_dir` (early return with no bindings); otherwise build
`tmp_weight_dict` from the `.npy` files, bind every engine present in
`ip_dict`, and check the declared external-weight count, if any. -/
def load_external_weights (io : IOShapeDict) (present : Nat → Bool)
    (dir : Option (List EWFile)) : List (Nat × List Nat) × Option String :=
  match dir with
  | none => ([], none)
  | some files =>
    let dict := files.foldl
      (fun acc f => if f.isNpy then dictInsert acc f.stem f.tensor else acc) []
    let ews := dict.filter (fun p => present p.1)
    match io.number_of_external_weights with
    | some k =>
      if ews.length = k then (ews, none)
      else (ews, some "Number of hardware external weights and number of external weight tensors available do not match.")
    | none => (ews, none)

/-! ## Concrete instances used to evaluate the claims -/

/-- A small well-formed descriptor: one 8-bit input channel with normal
shape `(1, 4)` folded to `(1, 2, 2)`, and a matching output channel. -/
def sampleIO : IOShapeDict where
  idt := [8]
  odt := [8]
  ishape_normal := [[1, 4]]
  oshape_normal := [[1, 4]]
  ishape_folded := [[1, 2, 2]]
  oshape_folded := [[1, 2, 2]]
  ishape_packed := [[1, 2, 2]]
  oshape_packed := [[1, 2, 2]]
  num_inputs := 1
  num_outputs := 1
  number_of_external_weights := none

/-- `sampleIO` with a declared nonzero external-weight count. -/
def sampleIOExtW : IOShapeDict :=
  { sampleIO with number_of_external_weights := some 3 }

/-- A zynq-iodma driver over `sampleIO` with one external weight. -/
def sampleDriver : Driver where
  platform := "zynq-iodma"
  io := sampleIO
  batch_size := 1
  external_weights := [⟨7, 100⟩]
  ibufAddr := fun i => 1000 + i
  obufAddr := fun o => 2000 + o
  odma_handle := []

/-- An alveo driver over `sampleIO` with one (idle) output channel. -/
def sampleAlveo : Driver where
  platform := "alveo"
  io := sampleIO
  batch_size := 1
  external_weights := []
  ibufAddr := fun i => 1000 + i
  obufAddr := fun o => 2000 + o
  odma_handle := [none]

/-- `sampleAlveo` with a pending handle on the output channel. -/
def sampleAlveoPending : Driver :=
  { sampleAlveo with odma_handle := [some 5] }

/-- A descriptor whose normal output shape differs from its normal input
shape (as is typical for a classifier accelerator). -/
def mismatchIO : IOShapeDict :=
  { sampleIO with oshape_normal := [[1, 2, 2]] }

/-- A driver over `mismatchIO`. -/
def mismatchDriver : Driver :=
  { sampleDriver with io := mismatchIO }

/-- An environment whose output engines are idle (status bit 0x4 set) at
launch and done (status bit 0x2 set) at the first wait poll. -/
def envIdle : Env where
  lstat := fun _ => 0x4
  zstat := fun _ _ => 0x2
  hdl := fun o => o

/-- An environment whose output engine 0 is busy (idle bit clear). -/
def envBusy : Env where
  lstat := fun _ => 0
  zstat := fun _ _ => 0x2
  hdl := fun o => o

/-! ## Theorems -/

/-- C5: asynchronous-execution semantics.  A call with `asynch=False` (the
default) is exactly the `asynch=True` launch followed by
`wait_until_finished` on the launched state; with `asynch=True` the call
returns right after the launch section, performing no wait. -/
theorem execute_asynch_semantics (d : Driver) (env : Env) (fuel : Nat)
    (bso : Option Nat) :
    execute_on_buffers d env fuel false bso
      = seqRun (execute_on_buffers d env fuel true bso)
          (fun d1 => wait_until_finished d1 env fuel) := by
  unfold execute_on_buffers
  by_cases hbs : bso.getD d.batch_size ≤ d.batch_size
  · simp only [if_pos hbs]
    rcases hl : launchOnBuffers d env (bso.getD d.batch_size) with ⟨t, r⟩
    cases r <;> simp [seqRun]
  · simp [if_neg hbs, seqRun]

/-- C6: setting the batch size to `n` and then querying an input or
output packed shape returns the descriptor's packed shape with its
leading dimension replaced by `n`, whatever the prior batch size was. -/
theorem set_batch_size_shapes (d : Driver) (n ind : Nat) (s : List Nat) :
    (d.io.ishape_packed[ind]? = some s → s ≠ [] →
      (set_batch_size d n).ishape_packed ind = some (n :: s.tail)) ∧
    (d.io.oshape_packed[ind]? = some s → s ≠ [] →
      (set_batch_size d n).oshape_packed ind = some (n :: s.tail)) := by
  constructor <;> intro hs hne <;>
    (cases s with
     | nil => exact absurd rfl hne
     | cons a t =>
         simp [set_batch_size, Driver.ishape_packed, Driver.oshape_packed, hs, setHead])

/-- C6 witness: on the sample driver, setting the batch size to 5 makes
both packed-shape queries return `[5, 2, 2]`. -/
theorem set_batch_size_shapes_w :
    (set_batch_size sampleDriver 5).ishape_packed 0 = some [5, 2, 2] ∧
    (set_batch_size sampleDriver 5).oshape_packed 0 = some [5, 2, 2] :=
  ⟨(set_batch_size_shapes sampleDriver 5 0 [1, 2, 2]).1 rfl (by decide),
   (set_batch_size_shapes sampleDriver 5 0 [1, 2, 2]).2 rfl (by decide)⟩

/-- C9 counterexample: the batch-size setter performs no check, so the
state with `batch_size = 0` is reachable, violating `batch_size ≥ 1`. -/
theorem batch_size_invariant_ce :
    (set_batch_size sampleDriver 0).batch_size = 0 ∧
    ¬ 1 ≤ (set_batch_size sampleDriver 0).batch_size := by
  exact ⟨rfl, by decide⟩

/-- C9 (amended): the setter stores the given value unchanged and
enforces no lower bound; `batch_size ≥ 1` therefore holds exactly when
construction and every setter call supply a value ≥ 1. -/
theorem set_batch_size_stores_value (d : Driver) (n : Nat) :
    (set_batch_size d n).batch_size = n ∧
    (1 ≤ n → 1 ≤ (set_batch_size d n).batch_size) :=
  ⟨rfl, fun h => h⟩

/-- C9 witness: storing the value 3 yields batch size 3, which satisfies
the lower bound because the supplied value does. -/
theorem set_batch_size_stores_value_w :
    (set_batch_size sampleDriver 3).batch_size = 3 ∧
    1 ≤ (set_batch_size sampleDriver 3).batch_size :=
  ⟨(set_batch_size_stores_value sampleDriver 3).1,
   (set_batch_size_stores_value sampleDriver 3).2 (by decide)⟩

/-- C10: when the runtime-weight directory does not exist,
`load_external_weights` returns an empty external-weights list with no
error, skipping the declared-count integrity check even when the
descriptor declares a nonzero `number_of_external_weights`. -/
theorem load_external_weights_missing_dir (io : IOShapeDict)
    (present : Nat → Bool) (k : Nat)
    (_hk : io.number_of_external_weights = some k) (_hpos : 0 < k) :
    load_external_weights io present none = ([], none) := rfl

/-- C10 witness: with three declared external weights and no directory,
loading succeeds with an empty list. -/
theorem load_external_weights_missing_dir_w :
    load_external_weights sampleIOExtW (fun _ => true) none = ([], none) :=
  load_external_weights_missing_dir sampleIOExtW (fun _ => true) 3 rfl (by decide)

/-- With verification on, the runtime-weight loop succeeds iff every
written layer reads back equal to what was written. -/
theorem rtLoop_verify_none_iff (present : Nat → Bool)
    (dev : Nat → List Nat → List Nat) (layers : List RtLayer) :
    (rtLoop present dev true layers).2 = none ↔
      ∀ l ∈ layers, present l.sdp = true →
        (dev l.sdp l.words).take l.words.length = l.words := by
  induction layers with
  | nil => simp [rtLoop]
  | cons l rest ih =>
      by_cases hp : present l.sdp
      · by_cases hv : (dev l.sdp l.words).take l.words.length = l.words
        · simp [rtLoop, hp, hv, ih]
        · have hres : (rtLoop present dev true (l :: rest)).2
              = some "AssertionError: runtime weight readback mismatch" := by
            simp [rtLoop, hp, hv]
          rw [hres]
          constructor
          · intro h; simp at h
          · intro h; exact absurd (h l (by simp) hp) hv
      · simp [rtLoop, hp, ih]

/-- The error result of `load_runtime_weights` is that of its per-layer
write/verify loop (the flush step does not change it). -/
theorem load_runtime_weights_err (layers : List RtLayer) (present : Nat → Bool)
    (dev : Nat → List Nat → List Nat) (flush verify : Bool) :
    (load_runtime_weights layers present dev flush verify).2
      = (rtLoop present dev verify layers).2 := by
  unfold load_runtime_weights
  rcases h : (rtLoop present dev verify layers).2 with _ | e
  · cases flush <;> simp [h]
  · simp [h]

/-- C7: with verification requested, `load_runtime_weights` re-reads the
written number of words from offset 0 of each written partition and
succeeds exactly when every readback equals what was written; any
differing word makes it raise the fatal assertion instead. -/
theorem runtime_weight_verification (layers : List RtLayer) (present : Nat → Bool)
    (dev : Nat → List Nat → List Nat) (flush : Bool) :
    (load_runtime_weights layers present dev flush true).2 = none ↔
      ∀ l ∈ layers, present l.sdp = true →
        (dev l.sdp l.words).take l.words.length = l.words := by
  rw [load_runtime_weights_err]
  exact rtLoop_verify_none_iff present dev layers

/-- C7 witness: a faithful backing store verifies successfully, and a
store that corrupts a word makes the load fail. -/
theorem runtime_weight_verification_w :
    (load_runtime_weights [⟨0, 0, [1, 2]⟩] (fun _ => true)
        (fun _ w => w) false true).2 = none ∧
    (load_runtime_weights [⟨0, 0, [1, 2]⟩] (fun _ => true)
        (fun _ _ => [1, 3]) false true).2 ≠ none :=
  ⟨(runtime_weight_verification [⟨0, 0, [1, 2]⟩] (fun _ => true)
      (fun _ w => w) false).mpr (by decide),
   fun h => by
     have := (runtime_weight_verification [⟨0, 0, [1, 2]⟩] (fun _ => true)
       (fun _ _ => [1, 3]) false).mp h
     exact absurd (this ⟨0, 0, [1, 2]⟩ (by simp) rfl) (by decide)⟩

/-- The per-layer write/verify loop never emits a flush event. -/
theorem rtLoop_no_flush (present : Nat → Bool) (dev : Nat → List Nat → List Nat)
    (verify : Bool) (layers : List RtLayer) :
    RtEv.flushExec ∉ (rtLoop present dev verify layers).1 := by
  induction layers with
  | nil => simp [rtLoop]
  | cons l rest ih =>
      by_cases hp : present l.sdp
      · cases verify with
        | false => simpa [rtLoop, hp] using ih
        | true =>
          by_cases hv : (dev l.sdp l.words).take l.words.length = l.words
          · simpa [rtLoop, hp, hv] using ih
          · simp [rtLoop, hp, hv]
      · simpa [rtLoop, hp] using ih

/-- C8 counterexample: with flush and verification both requested, a
verification failure aborts `load_runtime_weights` before the dummy
execution — no flush cycle is performed, contrary to the claim that the
flush happens whether verification succeeded or failed. -/
theorem runtime_weight_flush_ce :
    RtEv.flushExec ∉ (load_runtime_weights [⟨0, 0, [1]⟩] (fun _ => true)
        (fun _ _ => [2]) true true).1 ∧
    (load_runtime_weights [⟨0, 0, [1]⟩] (fun _ => true)
        (fun _ _ => [2]) true true).2.isSome = true := by
  decide

/-- C8 (amended): with flush requested, `load_runtime_weights` performs
exactly one dummy execution cycle, after all weight writes, provided no
verification failure occurred; if verification fails it raises without
flushing (the write/verify loop itself never flushes). -/
theorem runtime_weight_flush_amended (layers : List RtLayer) (present : Nat → Bool)
    (dev : Nat → List Nat → List Nat) (verify : Bool) :
    ((rtLoop present dev verify layers).2 = none →
      (load_runtime_weights layers present dev true verify).1
        = (rtLoop present dev verify layers).1 ++ [RtEv.flushExec]) ∧
    ((rtLoop present dev verify layers).2 ≠ none →
      RtEv.flushExec ∉ (load_runtime_weights layers present dev true verify).1) ∧
    RtEv.flushExec ∉ (rtLoop present dev verify layers).1 := by
  refine ⟨?_, ?_, rtLoop_no_flush present dev verify layers⟩
  · intro h; simp [load_runtime_weights, h]
  · intro h
    rcases he : (rtLoop present dev verify layers).2 with _ | e
    · exact absurd he h
    · simpa [load_runtime_weights, he] using rtLoop_no_flush present dev verify layers

/-- C8 witness: with a faithful store the flush cycle runs once, after
the weight write. -/
theorem runtime_weight_flush_amended_w :
    (load_runtime_weights [⟨0, 0, [1]⟩] (fun _ => true) (fun _ w => w) true true).1
      = (rtLoop (fun _ => true) (fun _ w => w) true [⟨0, 0, [1]⟩]).1
          ++ [RtEv.flushExec] :=
  (runtime_weight_flush_amended [⟨0, 0, [1]⟩] (fun _ => true)
    (fun _ w => w) true).1 (by decide)

/-- Spelling out `execute_on_buffers` once the batch-size precondition
holds. -/
theorem execute_on_buffers_eq (d : Driver) (env : Env) (fuel : Nat) (asynch : Bool)
    (bso : Option Nat) (hbs : bso.getD d.batch_size ≤ d.batch_size) :
    execute_on_buffers d env fuel asynch bso
      = (match launchOnBuffers d env (bso.getD d.batch_size) with
         | (t, Res.ok d1) =>
           if asynch then (t, Res.ok d1)
           else (t ++ (wait_until_finished d1 env fuel).1,
                 (wait_until_finished d1 env fuel).2)
         | r => r) := by
  unfold execute_on_buffers
  rw [if_pos hbs]

/-- The idle-precondition loop performs register reads only. -/
theorem zynqCheckIdle_no_writes (f : Nat → Nat) (os : List Nat) :
    ∀ ev ∈ (zynqCheckIdle f os).1, ev.isWrite = false := by
  induction os with
  | nil => simp [zynqCheckIdle]
  | cons o os ih =>
      intro ev hev
      by_cases h : f o &&& 0x4 ≠ 0
      · simp only [zynqCheckIdle, if_pos h, List.mem_cons] at hev
        rcases hev with rfl | hev
        · rfl
        · exact ih ev hev
      · simp only [zynqCheckIdle, if_neg h, List.mem_singleton] at hev
        subst hev; rfl

/-- The idle-precondition loop succeeds iff every listed output engine
reports the idle bit. -/
theorem zynqCheckIdle_none_iff (f : Nat → Nat) (os : List Nat) :
    (zynqCheckIdle f os).2 = none ↔ ∀ o ∈ os, f o &&& 0x4 ≠ 0 := by
  induction os with
  | nil => simp [zynqCheckIdle]
  | cons o os ih =>
      by_cases h : f o &&& 0x4 ≠ 0
      · simp [zynqCheckIdle, if_pos h, ih, h]
      · have h0 : f o &&& 0x4 = 0 := of_not_not h
        constructor
        · intro hfalse; simp [zynqCheckIdle, if_neg h] at hfalse
        · intro hall; exact absurd h0 (hall o (by simp))

/-- When every listed engine is idle, the precondition loop reads each
one's status register, in order. -/
theorem zynqCheckIdle_trace (f : Nat → Nat) (os : List Nat)
    (h : ∀ o ∈ os, f o &&& 0x4 ≠ 0) :
    (zynqCheckIdle f os).1 = os.map (fun o => Ev.rd (Engine.odma o) 0x00) := by
  induction os with
  | nil => simp [zynqCheckIdle]
  | cons o os ih =>
      have ho := h o (by simp)
      simp only [zynqCheckIdle, if_pos ho, List.map_cons]
      simp [ih (fun o' ho' => h o' (by simp [ho']))]

/-- C2: on the zynq-iodma platform, if some output engine's status
register lacks the idle bit 0x4, `execute_on_buffers` raises the fatal
precondition assertion and its whole trace is free of register writes;
and whenever the launch proceeds, the trace begins with the idle-check
reads of every output engine, so registers are written only after every
output engine has been checked idle. -/
theorem zynq_launch_precondition (d : Driver) (env : Env) (fuel : Nat)
    (asynch : Bool) (bso : Option Nat)
    (hplat : d.platform = "zynq-iodma")
    (hbs : bso.getD d.batch_size ≤ d.batch_size) :
    ((∃ o, o < d.io.num_outputs ∧ env.lstat o &&& 0x4 = 0) →
      (∃ e, (execute_on_buffers d env fuel asynch bso).2 = Res.err e) ∧
      ∀ ev ∈ (execute_on_buffers d env fuel asynch bso).1, ev.isWrite = false) ∧
    ((∀ o, o < d.io.num_outputs → env.lstat o &&& 0x4 ≠ 0) →
      ∃ rest, (execute_on_buffers d env fuel asynch bso).1
        = (List.range d.io.num_outputs).map (fun o => Ev.rd (Engine.odma o) 0x00)
            ++ rest) := by
  rw [execute_on_buffers_eq d env fuel asynch bso hbs]
  rcases hc : zynqCheckIdle env.lstat (List.range d.io.num_outputs) with ⟨tc, rc⟩
  constructor
  · rintro ⟨o, ho, hidle⟩
    have hsome : (zynqCheckIdle env.lstat (List.range d.io.num_outputs)).2 ≠ none := by
      rw [Ne, zynqCheckIdle_none_iff]
      intro hall
      exact hall o (List.mem_range.mpr ho) hidle
    rw [hc] at hsome
    rcases rc with _ | e
    · exact absurd rfl hsome
    · have hl : launchOnBuffers d env (bso.getD d.batch_size) = (tc, Res.err e) := by
        unfold launchOnBuffers
        rw [if_pos hplat, hc]
      rw [hl]
      refine ⟨⟨e, rfl⟩, fun ev hev => ?_⟩
      have hnw := zynqCheckIdle_no_writes env.lstat (List.range d.io.num_outputs)
      rw [hc] at hnw
      exact hnw ev hev
  · intro hall
    have hall' : ∀ o ∈ List.range d.io.num_outputs, env.lstat o &&& 0x4 ≠ 0 :=
      fun o ho => hall o (List.mem_range.mp ho)
    have hnone : (zynqCheckIdle env.lstat (List.range d.io.num_outputs)).2 = none :=
      (zynqCheckIdle_none_iff _ _).mpr hall'
    have htr := zynqCheckIdle_trace env.lstat (List.range d.io.num_outputs) hall'
    rw [hc] at hnone htr
    rcases rc with _ | e
    swap
    · exact absurd hnone (by simp)
    have hl : launchOnBuffers d env (bso.getD d.batch_size)
        = (tc ++ ewWrites (bso.getD d.batch_size) d.external_weights
             ++ odmaWrites d (bso.getD d.batch_size)
             ++ idmaWrites d (bso.getD d.batch_size), Res.ok d) := by
      unfold launchOnBuffers
      rw [if_pos hplat, hc]
    rw [hl]
    cases asynch with
    | false =>
        refine ⟨ewWrites (bso.getD d.batch_size) d.external_weights
          ++ odmaWrites d (bso.getD d.batch_size)
          ++ idmaWrites d (bso.getD d.batch_size)
          ++ (wait_until_finished d env fuel).1, ?_⟩
        simp [List.append_assoc]
        exact htr
    | true =>
        refine ⟨ewWrites (bso.getD d.batch_size) d.external_weights
          ++ odmaWrites d (bso.getD d.batch_size)
          ++ idmaWrites d (bso.getD d.batch_size), ?_⟩
        simp [List.append_assoc]
        exact htr

/-- C2 witness: on the sample zynq driver with its single output engine
busy, execution fails with an assertion and performs no writes. -/
theorem zynq_launch_precondition_w :
    (∃ e, (execute_on_buffers sampleDriver envBusy 1 false none).2 = Res.err e) ∧
    ∀ ev ∈ (execute_on_buffers sampleDriver envBusy 1 false none).1,
      ev.isWrite = false :=
  (zynq_launch_precondition sampleDriver envBusy 1 false none rfl (by decide)).1
    ⟨0, by decide, rfl⟩

/-- The external-weight launch loop written as a `flatMap`. -/
theorem ewWrites_eq_flatMap (bs : Nat) (l : List EWBinding) :
    ewWrites bs l = l.flatMap (fun b =>
      [Ev.wr (Engine.iwdma b.eng) 0x10 b.addr,
       Ev.wr (Engine.iwdma b.eng) 0x1C bs,
       Ev.wr (Engine.iwdma b.eng) 0x00 1]) := by
  induction l with
  | nil => rfl
  | cons b rest ih => simp [ewWrites, iodmaWrites, ih]

/-- C4: a successful zynq-iodma launch performs, after the idle-check
reads, the register writes for every external-weight engine first, then
every output engine, then every input engine, in that order, each engine
receiving its device buffer address at offset 0x10, the batch size at
offset 0x1C and the start trigger 1 at offset 0x00. -/
theorem zynq_launch_write_order (d : Driver) (env : Env) (fuel : Nat)
    (bso : Option Nat)
    (hplat : d.platform = "zynq-iodma")
    (hbs : bso.getD d.batch_size ≤ d.batch_size)
    (hidle : ∀ o, o < d.io.num_outputs → env.lstat o &&& 0x4 ≠ 0) :
    execute_on_buffers d env fuel true bso
      = ((List.range d.io.num_outputs).map (fun o => Ev.rd (Engine.odma o) 0x00)
          ++ d.external_weights.flatMap (fun b =>
               [Ev.wr (Engine.iwdma b.eng) 0x10 b.addr,
                Ev.wr (Engine.iwdma b.eng) 0x1C (bso.getD d.batch_size),
                Ev.wr (Engine.iwdma b.eng) 0x00 1])
          ++ (List.range d.io.num_outputs).flatMap (fun o =>
               [Ev.wr (Engine.odma o) 0x10 (d.obufAddr o),
                Ev.wr (Engine.odma o) 0x1C (bso.getD d.batch_size),
                Ev.wr (Engine.odma o) 0x00 1])
          ++ (List.range d.io.num_inputs).flatMap (fun i =>
               [Ev.wr (Engine.idma i) 0x10 (d.ibufAddr i),
                Ev.wr (Engine.idma i) 0x1C (bso.getD d.batch_size),
                Ev.wr (Engine.idma i) 0x00 1]),
         Res.ok d) := by
  rw [execute_on_buffers_eq d env fuel true bso hbs]
  have hall' : ∀ o ∈ List.range d.io.num_outputs, env.lstat o &&& 0x4 ≠ 0 :=
    fun o ho => hidle o (List.mem_range.mp ho)
  rcases hc : zynqCheckIdle env.lstat (List.range d.io.num_outputs) with ⟨tc, rc⟩
  have hnone : (zynqCheckIdle env.lstat (List.range d.io.num_outputs)).2 = none :=
    (zynqCheckIdle_none_iff _ _).mpr hall'
  have htr := zynqCheckIdle_trace env.lstat (List.range d.io.num_outputs) hall'
  rw [hc] at hnone htr
  rcases rc with _ | e
  swap
  · exact absurd hnone (by simp)
  have hl : launchOnBuffers d env (bso.getD d.batch_size)
      = (tc ++ ewWrites (bso.getD d.batch_size) d.external_weights
           ++ odmaWrites d (bso.getD d.batch_size)
           ++ idmaWrites d (bso.getD d.batch_size), Res.ok d) := by
    unfold launchOnBuffers
    rw [if_pos hplat, hc]
  rw [hl]
  simp only [if_pos, ewWrites_eq_flatMap, odmaWrites, idmaWrites, iodmaWrites]
  have htc : tc
      = List.map (fun o => Ev.rd (Engine.odma o) 0x00) (List.range d.io.num_outputs) := htr
  rw [htc]

/-- C4 witness: the full launch trace on the sample zynq driver (one
external weight named 7 at address 100, one output channel, one input
channel, batch size 1). -/
theorem zynq_launch_write_order_w :
    execute_on_buffers sampleDriver envIdle 1 true none
      = ([Ev.rd (Engine.odma 0) 0x00,
          Ev.wr (Engine.iwdma 7) 0x10 100,
          Ev.wr (Engine.iwdma 7) 0x1C 1,
          Ev.wr (Engine.iwdma 7) 0x00 1,
          Ev.wr (Engine.odma 0) 0x10 2000,
          Ev.wr (Engine.odma 0) 0x1C 1,
          Ev.wr (Engine.odma 0) 0x00 1,
          Ev.wr (Engine.idma 0) 0x10 1000,
          Ev.wr (Engine.idma 0) 0x1C 1,
          Ev.wr (Engine.idma 0) 0x00 1],
         Res.ok sampleDriver) :=
  zynq_launch_write_order sampleDriver envIdle 1 none rfl (by decide) (by decide)

/-- The alveo pending-handle check succeeds iff every listed output
channel's stored handle is absent. -/
theorem alveoCheck_none_iff (hs : List (Option Nat)) (os : List Nat) :
    alveoCheck hs os = none ↔ ∀ o ∈ os, hs[o]? = some none := by
  induction os with
  | nil => simp [alveoCheck]
  | cons o os ih =>
      cases ho : hs[o]? with
      | none => simp [alveoCheck, ho]
      | some x =>
        cases x with
        | none => simp [alveoCheck, ho, ih]
        | some h => simp [alveoCheck, ho]

/-- Setting an element just past a prefix. -/
theorem set_append_length {α : Type} (l1 l2 : List α) (v : α) :
    (l1 ++ l2).set l1.length v = l1 ++ l2.set 0 v := by
  induction l1 with
  | nil => rfl
  | cons a t ih =>
      show a :: ((t ++ l2).set t.length v) = a :: (t ++ l2.set 0 v)
      rw [ih]

/-- The handle-assignment loop of the alveo launch overwrites the first
`n` positions with the freshly returned handles. -/
theorem setHandles_eq (env : Env) :
    ∀ (n : Nat) (hs : List (Option Nat)), n ≤ hs.length →
      setHandles hs env n
        = (List.range n).map (fun o => some (env.hdl o)) ++ hs.drop n := by
  intro n
  induction n with
  | zero => intro hs _; simp [setHandles]
  | succ n ih =>
      intro hs h
      have hstep : setHandles hs env (n + 1)
          = (setHandles hs env n).set n (some (env.hdl n)) := by
        unfold setHandles
        rw [List.range_succ, List.foldl_append]
        rfl
      have hn : n < hs.length := Nat.lt_of_succ_le h
      rw [hstep, ih hs (Nat.le_of_lt hn)]
      have hlen : ((List.range n).map (fun o => some (env.hdl o))).length = n := by
        simp
      have h1 := set_append_length ((List.range n).map (fun o => some (env.hdl o)))
        (hs.drop n) (some (env.hdl n))
      rw [hlen] at h1
      rw [h1, List.drop_eq_getElem_cons hn]
      simp [List.range_succ]
      rw [List.drop_eq_getElem_cons hn]
      rfl

/-- The alveo wait loop over indices `i, i+1, …` of a handle list whose
positions from `i` on hold the pending handles `hv`: it waits on each in
turn and clears each to absent. -/
theorem alveoWaitLoop_spec (hv : List Nat) :
    ∀ (pre : List (Option Nat)) (i : Nat), pre.length = i →
      alveoWaitLoop (pre ++ hv.map some) (List.range' i hv.length)
        = (hv.map Ev.waitH, pre ++ hv.map (fun _ => none), none) := by
  induction hv with
  | nil => intro pre i _; simp [alveoWaitLoop]
  | cons h hv ih =>
      intro pre i hp
      have hr : List.range' i (h :: hv).length = i :: List.range' (i + 1) hv.length := by
        simp [List.range'_succ]
      have hget : (pre ++ (h :: hv).map some)[i]? = some (some h) := by
        rw [← hp, List.getElem?_append_right (Nat.le_refl _)]
        simp
      have hset : (pre ++ (h :: hv).map some).set i none
          = (pre ++ [none]) ++ hv.map some := by
        rw [← hp, set_append_length]
        simp
      rw [hr]
      simp only [alveoWaitLoop, hget, hset,
        ih (pre ++ [none]) (i + 1) (by simp [hp])]
      simp

/-- C3: alveo transfer-handle lifecycle.  Each output channel's handle is
an `Option` (absent or pending).  Launch is fatal when any handle is
already pending, and otherwise sets every output channel's handle to the
pending handle returned by its `start`; `wait_until_finished` is fatal
when handles are absent, and otherwise waits on each stored handle in
order and clears every one to absent. -/
theorem alveo_handle_lifecycle (d : Driver) (env : Env) (fuel : Nat)
    (bso : Option Nat)
    (hplat : d.platform = "alveo")
    (hbs : bso.getD d.batch_size ≤ d.batch_size)
    (hlen : d.odma_handle.length = d.io.num_outputs) :
    ((∃ o, o < d.io.num_outputs ∧ ∃ h, d.odma_handle[o]? = some (some h)) →
      ∃ e, execute_on_buffers d env fuel true bso = ([], Res.err e)) ∧
    ((∀ o, o < d.io.num_outputs → d.odma_handle[o]? = some none) →
      execute_on_buffers d env fuel true bso
        = (alveoStarts d (bso.getD d.batch_size),
           Res.ok { d with odma_handle :=
             (List.range d.io.num_outputs).map (fun o => some (env.hdl o)) })) ∧
    (d.odma_handle.all (fun x => x.isSome) = false →
      wait_until_finished d env fuel = ([], Res.err "No odma_handle to wait on")) ∧
    (∀ hv : List Nat, d.odma_handle = hv.map some →
      wait_until_finished d env fuel
        = (hv.map Ev.waitH,
           Res.ok { d with odma_handle := hv.map (fun _ => none) })) := by
  have hne : d.platform ≠ "zynq-iodma" := by rw [hplat]; decide
  refine ⟨?_, ?_, ?_, ?_⟩
  · rintro ⟨o, ho, h, hpend⟩
    have hsome : alveoCheck d.odma_handle (List.range d.io.num_outputs) ≠ none := by
      rw [Ne, alveoCheck_none_iff]
      intro hall
      have hco := hall o (List.mem_range.mpr ho)
      rw [hpend] at hco
      simp at hco
    rcases ha : alveoCheck d.odma_handle (List.range d.io.num_outputs) with _ | e
    · exact absurd ha hsome
    · have hl : launchOnBuffers d env (bso.getD d.batch_size) = ([], Res.err e) := by
        unfold launchOnBuffers
        rw [if_neg hne, if_pos hplat, ha]
      rw [execute_on_buffers_eq d env fuel true bso hbs, hl]
      exact ⟨e, rfl⟩
  · intro hall
    have hnone : alveoCheck d.odma_handle (List.range d.io.num_outputs) = none :=
      (alveoCheck_none_iff _ _).mpr (fun o ho => hall o (List.mem_range.mp ho))
    have hl : launchOnBuffers d env (bso.getD d.batch_size)
        = (alveoStarts d (bso.getD d.batch_size),
           Res.ok { d with odma_handle := setHandles d.odma_handle env d.io.num_outputs }) := by
      unfold launchOnBuffers
      rw [if_neg hne, if_pos hplat, hnone]
    rw [execute_on_buffers_eq d env fuel true bso hbs, hl]
    have hset : setHandles d.odma_handle env d.io.num_outputs
        = (List.range d.io.num_outputs).map (fun o => some (env.hdl o)) := by
      rw [setHandles_eq env d.io.num_outputs d.odma_handle (le_of_eq hlen.symm)]
      rw [← hlen, List.drop_length, List.append_nil]
    rw [hset]
    rfl
  · intro hfalse
    unfold wait_until_finished
    rw [if_neg hne, if_pos hplat, hfalse]
    rfl
  · intro hv hmap
    have hall : d.odma_handle.all (fun x => x.isSome) = true := by
      rw [hmap]; simp
    have hn : d.io.num_outputs = hv.length := by
      rw [← hlen, hmap]; simp
    have hloop := alveoWaitLoop_spec hv [] 0 rfl
    unfold wait_until_finished
    rw [if_neg hne, if_pos hplat, hall, if_pos rfl, hmap, hn,
      List.range_eq_range']
    simp only [List.nil_append] at hloop
    rw [hloop]

/-- C3 witness: on the sample alveo driver, launching with the idle
handle stores the pending handle, and waiting on a pending handle waits
on it and clears it. -/
theorem alveo_handle_lifecycle_w :
    execute_on_buffers sampleAlveo envIdle 1 true none
      = (alveoStarts sampleAlveo 1,
         Res.ok { sampleAlveo with odma_handle := [some (envIdle.hdl 0)] }) ∧
    wait_until_finished sampleAlveoPending envIdle 1
      = ([Ev.waitH 5], Res.ok { sampleAlveoPending with odma_handle := [none] }) :=
  ⟨by
     have h := (alveo_handle_lifecycle sampleAlveo envIdle 1 none rfl (by decide)
       rfl).2.1 (by decide)
     simpa using h,
   by
     have h := ((alveo_handle_lifecycle sampleAlveoPending envIdle 1 none rfl
       (by decide) rfl).2.2.2) [5] rfl
     simpa using h⟩

/-- A fixed-length digit expansion has the requested length. -/
theorem toLEdigits_length (b : Nat) : ∀ (len n : Nat), (toLEdigits b len n).length = len
  | 0, _ => rfl
  | len + 1, n => by simp [toLEdigits, toLEdigits_length b len]

/-- The big-endian expansion also has the requested length. -/
theorem toBEdigits_length (b len n : Nat) : (toBEdigits b len n).length = len := by
  simp [toBEdigits, toLEdigits_length]

/-- Appending a least-significant digit to a big-endian digit list. -/
theorem ofBEdigits_append_singleton (b : Nat) (ds : List Nat) (d : Nat) :
    ofBEdigits b (ds ++ [d]) = ofBEdigits b ds * b + d := by
  simp [ofBEdigits, List.foldl_append]

/-- One step of the big-endian expansion, at the least-significant end. -/
theorem toBEdigits_succ (b len n : Nat) :
    toBEdigits b (len + 1) n = toBEdigits b len (n / b) ++ [n % b] := by
  simp [toBEdigits, toLEdigits]

/-- Reassembling the big-endian expansion recovers the value. -/
theorem ofBEdigits_toBEdigits (b : Nat) (hb : 1 < b) :
    ∀ (len n : Nat), n < b ^ len → ofBEdigits b (toBEdigits b len n) = n := by
  intro len
  induction len with
  | zero =>
      intro n hn
      have : n = 0 := by simpa using Nat.lt_one_iff.mp (by simpa using hn)
      simp [this, toBEdigits, toLEdigits, ofBEdigits]
  | succ len ih =>
      intro n hn
      have hbpos : 0 < b := Nat.lt_of_lt_of_le Nat.zero_lt_one (le_of_lt hb)
      have h1 : n / b < b ^ len := by
        rw [Nat.div_lt_iff_lt_mul hbpos]
        rw [pow_succ] at hn
        exact hn
      rw [toBEdigits_succ, ofBEdigits_append_singleton, ih (n / b) h1,
        Nat.mul_comm (n / b) b]
      exact Nat.div_add_mod n b

/-- Expanding a reassembled digit list recovers the digits. -/
theorem toBEdigits_ofBEdigits (b : Nat) (hb : 1 < b) (ds : List Nat)
    (h : ∀ d ∈ ds, d < b) :
    toBEdigits b ds.length (ofBEdigits b ds) = ds := by
  have hbpos : 0 < b := Nat.lt_of_lt_of_le Nat.zero_lt_one (le_of_lt hb)
  induction ds using List.reverseRecOn with
  | nil => rfl
  | append_singleton l d ih =>
      have hd : d < b := h d (by simp)
      have hlen : (l ++ [d]).length = l.length + 1 := by simp
      rw [hlen, ofBEdigits_append_singleton, toBEdigits_succ]
      have hmod : (ofBEdigits b l * b + d) % b = d := by
        rw [Nat.mul_comm (ofBEdigits b l) b, Nat.mul_add_mod]
        exact Nat.mod_eq_of_lt hd
      have hdiv : (ofBEdigits b l * b + d) / b = ofBEdigits b l := by
        rw [Nat.mul_comm (ofBEdigits b l) b, Nat.mul_add_div hbpos,
          Nat.div_eq_of_lt hd, Nat.add_zero]
      rw [hmod, hdiv, ih (fun x hx => h x (by simp [hx]))]

/-- A digit list with digits below the base reassembles below `b^len`. -/
theorem ofBEdigits_lt (b : Nat) (_hb : 0 < b) (ds : List Nat)
    (h : ∀ d ∈ ds, d < b) :
    ofBEdigits b ds < b ^ ds.length := by
  induction ds using List.reverseRecOn with
  | nil => simp [ofBEdigits]
  | append_singleton l d ih =>
      have hd : d < b := h d (by simp)
      have hl := ih (fun x hx => h x (by simp [hx]))
      rw [ofBEdigits_append_singleton]
      calc ofBEdigits b l * b + d < ofBEdigits b l * b + b := by omega
        _ = (ofBEdigits b l + 1) * b := by rw [Nat.succ_mul]
        _ ≤ b ^ l.length * b := Nat.mul_le_mul_right b (Nat.succ_le_of_lt hl)
        _ = b ^ (l ++ [d]).length := by simp [pow_succ]

/-- One packed row decodes back to the original lane elements. -/
theorem unpackRow_packRow (w k : Nat) (row : List Nat) (hw : 1 ≤ w)
    (hk : row.length = k) (hlt : ∀ e ∈ row, e < 2 ^ w) :
    unpackRow w k (packRow w row) = row := by
  have hb : 1 < 2 ^ w := Nat.one_lt_two_pow (by omega)
  have hrevlen : row.reverse.length = k := by simp [hk]
  have hrevlt : ∀ e ∈ row.reverse, e < 2 ^ w := by
    intro e he; exact hlt e (List.mem_reverse.mp he)
  have hnlt : ofBEdigits (2 ^ w) row.reverse < 2 ^ (w * k) := by
    have h1 := ofBEdigits_lt (2 ^ w) (Nat.pos_of_ne_zero (by positivity)) row.reverse hrevlt
    rw [hrevlen, ← pow_mul] at h1
    exact h1
  have hbytes : ofBEdigits (2 ^ w) row.reverse < 256 ^ bytesPerRow w k := by
    have h8 : w * k ≤ 8 * bytesPerRow w k := by unfold bytesPerRow; omega
    calc ofBEdigits (2 ^ w) row.reverse < 2 ^ (w * k) := hnlt
      _ ≤ 2 ^ (8 * bytesPerRow w k) := Nat.pow_le_pow_right (by norm_num) h8
      _ = 256 ^ bytesPerRow w k := by rw [pow_mul]; norm_num
  simp only [packRow, unpackRow, List.reverse_reverse, hk]
  rw [ofBEdigits_toBEdigits 256 (by norm_num) (bytesPerRow w k) _ hbytes]
  rw [← hrevlen, toBEdigits_ofBEdigits (2 ^ w) hb row.reverse hrevlt]
  exact List.reverse_reverse row

/-- `chunkRows` on the empty list. -/
theorem chunkRows_nil (k : Nat) : chunkRows k [] = [] := by
  rw [chunkRows]; simp

/-- One step of `chunkRows` on a nonempty list with a nonzero width. -/
theorem chunkRows_eq (k : Nat) (l : List Nat) (hk : k ≠ 0) (hl : l ≠ []) :
    chunkRows k l = l.take k :: chunkRows k (l.drop k) := by
  rw [chunkRows]
  simp [hk, hl]

/-- `chunkRows` splits off an exact-length prefix. -/
theorem chunkRows_cons_append (k : Nat) (ys l : List Nat) (hk : k ≠ 0)
    (hys : ys.length = k) :
    chunkRows k (ys ++ l) = ys :: chunkRows k l := by
  have hne : ys ++ l ≠ [] := by
    intro h
    rcases List.append_eq_nil.mp h with ⟨h1, _⟩
    rw [h1] at hys
    exact hk (by simpa using hys.symm)
  rw [chunkRows_eq k (ys ++ l) hk hne]
  congr 1
  · rw [← hys, List.take_left]
  · rw [← hys, List.drop_left]

/-- Chunking a concatenation of equal-length blocks recovers the blocks. -/
theorem chunkRows_flatMap (k : Nat) (hk : k ≠ 0) (rows : List (List Nat))
    (f : List Nat → List Nat) (hf : ∀ r ∈ rows, (f r).length = k) :
    chunkRows k (rows.flatMap f) = rows.map f := by
  induction rows with
  | nil => simpa using chunkRows_nil k
  | cons r rows ih =>
      rw [List.flatMap_cons, chunkRows_cons_append k (f r) _ hk (hf r (by simp)),
        ih (fun x hx => hf x (by simp [hx]))]
      rfl

/-- Flattening the chunks recovers the original list. -/
theorem chunkRows_flatten (k : Nat) (hk : k ≠ 0) (l : List Nat) :
    (chunkRows k l).flatMap id = l := by
  by_cases hl : l = []
  · subst hl; simp [chunkRows_nil]
  · rw [chunkRows_eq k l hk hl, List.flatMap_cons]
    rw [chunkRows_flatten k hk (l.drop k)]
    simp [List.take_append_drop k l]
termination_by l.length
decreasing_by
  simp only [List.length_drop]
  exact Nat.sub_lt (List.length_pos.mpr hl) (Nat.pos_of_ne_zero hk)

/-- When the width divides the list length, every chunk has full width. -/
theorem chunkRows_length_mem (k : Nat) (hk : k ≠ 0) (l : List Nat)
    (hd : k ∣ l.length) : ∀ r ∈ chunkRows k l, r.length = k := by
  by_cases hl : l = []
  · subst hl; simp [chunkRows_nil]
  · rw [chunkRows_eq k l hk hl]
    intro r hr
    rw [List.mem_cons] at hr
    rcases hr with rfl | hr
    · have hkle : k ≤ l.length := Nat.le_of_dvd (List.length_pos.mpr hl) hd
      simp [List.length_take, Nat.min_eq_left hkle]
    · exact chunkRows_length_mem k hk (l.drop k)
        (by simpa [List.length_drop] using Nat.dvd_sub' hd dvd_rfl) r hr
termination_by l.length
decreasing_by
  simp only [List.length_drop]
  exact Nat.sub_lt (List.length_pos.mpr hl) (Nat.pos_of_ne_zero hk)

/-- Elements of a chunk are elements of the chunked list. -/
theorem chunkRows_mem_mem (k : Nat) (hk : k ≠ 0) (l : List Nat)
    (r : List Nat) (hr : r ∈ chunkRows k l) (e : Nat) (he : e ∈ r) : e ∈ l := by
  have hm : e ∈ (chunkRows k l).flatMap id := List.mem_flatMap.mpr ⟨r, hr, he⟩
  rwa [chunkRows_flatten k hk l] at hm

/-- A packed row occupies exactly the packed byte count. -/
theorem packRow_length (w : Nat) (row : List Nat) :
    (packRow w row).length = bytesPerRow w row.length := by
  simp [packRow, toBEdigits_length]

/-- The innermost dimension divides the element count of a shape. -/
theorem getLast?_dvd_prod : ∀ (s : List Nat) (k : Nat), s.getLast? = some k → k ∣ s.prod
  | [], k, h => by simp at h
  | [a], k, h => by
      simp at h
      simp [h]
  | a :: b :: t, k, h => by
      have h' : (b :: t).getLast? = some k := by
        rwa [List.getLast?_cons_cons] at h
      have hd := getLast?_dvd_prod (b :: t) k h'
      simpa using hd.mul_left a

/-- Pointwise-equal functions give equal `flatMap`s. -/
theorem flatMap_congr_mem {α β : Type} (l : List α) (f g : α → List β)
    (h : ∀ a ∈ l, f a = g a) : l.flatMap f = l.flatMap g := by
  induction l with
  | nil => rfl
  | cons a t ih =>
      rw [List.flatMap_cons, List.flatMap_cons, h a (by simp),
        ih (fun x hx => h x (by simp [hx]))]

/-- Packing a folded tensor along its innermost dimension and unpacking
with the same datatype and folded shape recovers it exactly. -/
theorem codec_roundtrip (w : Nat) (x : Tensor) (k : Nat) (hw : 1 ≤ w)
    (hk : x.shape.getLast? = some k) (hk0 : k ≠ 0)
    (hwf : x.data.length = x.shape.prod)
    (hlt : ∀ e ∈ x.data, e < 2 ^ w) :
    (finnpy_to_packed w x).bind (packed_to_finnpy w x.shape) = some x := by
  obtain ⟨s, dat⟩ := x
  have hk' : s.getLast? = some k := hk
  have hwf' : dat.length = s.prod := hwf
  have hlt' : ∀ e ∈ dat, e < 2 ^ w := hlt
  have hdvd : k ∣ dat.length := by
    rw [hwf']; exact getLast?_dvd_prod s k hk'
  have hwk : 1 ≤ w * k := Nat.mul_pos hw (Nat.pos_of_ne_zero hk0)
  have hB : bytesPerRow w k ≠ 0 := by unfold bytesPerRow; omega
  have hrows_len : ∀ r ∈ chunkRows k dat, r.length = k :=
    chunkRows_length_mem k hk0 dat hdvd
  have hpack_len : ∀ r ∈ chunkRows k dat,
      (packRow w r).length = bytesPerRow w k := by
    intro r hr; rw [packRow_length, hrows_len r hr]
  have h1 : chunkRows (bytesPerRow w k) ((chunkRows k dat).flatMap (packRow w))
      = (chunkRows k dat).map (packRow w) :=
    chunkRows_flatMap (bytesPerRow w k) hB (chunkRows k dat) (packRow w) hpack_len
  have h3 : ((chunkRows k dat).map (packRow w)).flatMap (unpackRow w k) = dat := by
    rw [List.flatMap_map]
    have h4 : (chunkRows k dat).flatMap (fun r => unpackRow w k (packRow w r))
        = (chunkRows k dat).flatMap id := by
      apply flatMap_congr_mem
      intro r hr
      exact unpackRow_packRow w k r hw (hrows_len r hr)
        (fun e he => hlt' e (chunkRows_mem_mem k hk0 dat r hr e he))
    rw [h4, chunkRows_flatten k hk0 dat]
  show (finnpy_to_packed w ⟨s, dat⟩).bind (packed_to_finnpy w s) = some ⟨s, dat⟩
  unfold finnpy_to_packed packed_to_finnpy
  simp only [hk', if_neg hk0, Option.some_bind]
  rw [h1, h3]

/-- C1 counterexample: `unfold_output` reshapes to the descriptor's
normal *output* shape, so on a descriptor whose output shape differs from
its input shape (here input `(1,4)`, output `(1,2,2)`), the claimed
round-trip `unfold_output(fold_input(x)) = x` fails for an input of the
expected normal input shape. -/
theorem transform_roundtrip_ce :
    (fold_input mismatchDriver ⟨[1, 4], [10, 20, 30, 40]⟩ 0).bind
        (fun y => unfold_output mismatchDriver y 0)
      ≠ some ⟨[1, 4], [10, 20, 30, 40]⟩ := by
  decide

/-- C1 (amended): the round-trips hold when the output-side parameters
equal the input-side ones.  If the descriptor's normal output shape (at
the same index) equals its normal input shape and the folded element
count matches, then `unfold_output (fold_input x) = x` for every
well-formed `x` of the expected normal input shape; and if the output
datatype width equals the input datatype width and the folded output
shape equals the folded tensor's shape, then
`unpack_output (pack_input x) = x` for every well-formed folded tensor
of a supported datatype (width ≥ 1, elements within the width, nonzero
innermost dimension). -/
theorem transform_roundtrip_amended (d : Driver) (ind : Nat) (x xf : Tensor)
    (w : Nat) (sn sf : List Nat) (k : Nat) :
    (d.ishape_normal ind = some sn → d.ishape_folded ind = some sf →
     d.oshape_normal ind = some sn → x.shape = sn →
     x.data.length = x.shape.prod → sf.prod = sn.prod →
     (fold_input d x ind).bind (fun y => unfold_output d y ind) = some x) ∧
    (d.io.idt[ind]? = some w → d.io.odt[ind]? = some w →
     d.oshape_folded ind = some xf.shape →
     1 ≤ w → xf.shape.getLast? = some k → k ≠ 0 →
     xf.data.length = xf.shape.prod → (∀ e ∈ xf.data, e < 2 ^ w) →
     (pack_input d xf ind).bind (fun p => unpack_output d p ind) = some xf) := by
  constructor
  · intro hin hfold hout hx hwf hcnt
    obtain ⟨s, dat⟩ := x
    have hx' : s = sn := hx
    have hwf' : dat.length = s.prod := hwf
    unfold fold_input unfold_output reshape
    rw [hin, Option.some_bind, if_pos hx, hfold, Option.some_bind]
    have hlen1 : dat.length = sf.prod := by
      rw [hwf', hx', ← hcnt]
    rw [if_pos hlen1, Option.some_bind, hout, Option.some_bind]
    have hlen2 : dat.length = sn.prod := by rw [hwf', hx']
    rw [if_pos hlen2, hx']
  · intro hidt hodt hosf hw hk hk0 hwf hlt
    unfold pack_input unpack_output
    rw [hidt, Option.some_bind]
    have hcomp : ∀ p : Tensor,
        d.io.odt[ind]?.bind (fun w1 =>
          (d.oshape_folded ind).bind (fun sf1 => packed_to_finnpy w1 sf1 p))
          = packed_to_finnpy w xf.shape p := by
      intro p
      rw [hodt, Option.some_bind, hosf, Option.some_bind]
    calc (finnpy_to_packed w xf).bind (fun p =>
            d.io.odt[ind]?.bind (fun w1 =>
              (d.oshape_folded ind).bind (fun sf1 => packed_to_finnpy w1 sf1 p)))
        = (finnpy_to_packed w xf).bind (packed_to_finnpy w xf.shape) := by
          cases finnpy_to_packed w xf with
          | none => rfl
          | some p => exact hcomp p
      _ = some xf := codec_roundtrip w xf k hw hk hk0 hwf hlt

/-- C1 witness: on the matched sample descriptor (input and output sides
identical), both round-trips hold for the concrete tensor
`(1,4) ↦ [10,20,30,40]` and its folded form. -/
theorem transform_roundtrip_amended_w :
    (fold_input sampleDriver ⟨[1, 4], [10, 20, 30, 40]⟩ 0).bind
        (fun y => unfold_output sampleDriver y 0)
      = some ⟨[1, 4], [10, 20, 30, 40]⟩ ∧
    (pack_input sampleDriver ⟨[1, 2, 2], [10, 20, 30, 40]⟩ 0).bind
        (fun p => unpack_output sampleDriver p 0)
      = some ⟨[1, 2, 2], [10, 20, 30, 40]⟩ :=
  ⟨(transform_roundtrip_amended sampleDriver 0 ⟨[1, 4], [10, 20, 30, 40]⟩
      ⟨[1, 2, 2], [10, 20, 30, 40]⟩ 8 [1, 4] [1, 2, 2] 2).1
      rfl rfl rfl rfl (by decide) (by decide),
   (transform_roundtrip_amended sampleDriver 0 ⟨[1, 4], [10, 20, 30, 40]⟩
      ⟨[1, 2, 2], [10, 20, 30, 40]⟩ 8 [1, 4] [1, 2, 2] 2).2
      rfl rfl rfl (by decide) rfl (by decide) (by decide) (by decide)⟩

end FinnDriver
